import Mathlib

/-!
Verification of the CSV parsing and filtering core of a browser-based
CSV table viewer.  The application (three React variants) parses a CSV
text into rows (JS objects keyed by header names) and filters rows by
per-column case-insensitive substring match.

Strings are modelled as `List Char` (`Str`).  JS string primitives
(`trim`, `toLowerCase`, `split`, `includes`) are modelled by `jsTrim`,
`jsToLower`, `jsSplit`, `jsIncludes`.  JS objects (insertion-ordered
string-keyed maps with update-in-place assignment) are modelled as
association lists with `objSet` / `objGet`.
-/

abbrev Str := List Char

/-- A parsed CSV row: a JS object mapping column name to cell value,
modelled as an insertion-ordered association list. -/
abbrev TableRow := List (Str × Str)

/-- A filter map: column name to filter string. -/
abbrev ColumnFilter := List (Str × Str)

/-- JS `String.prototype.trim`: strip whitespace from both ends. -/
def jsTrim (s : Str) : Str :=
  ((s.dropWhile Char.isWhitespace).reverse.dropWhile Char.isWhitespace).reverse

/-- JS `String.prototype.toLowerCase` (ASCII range, as exercised here). -/
def jsToLower (s : Str) : Str := s.map Char.toLower

/-- JS `String.prototype.split` on a single-character separator.
Note `"".split(sep)` is `[""]`: the result is never the empty list. -/
def jsSplit (sep : Char) : Str → List Str
  | [] => [[]]
  | c :: rest =>
    if c = sep then [] :: jsSplit sep rest
    else
      match jsSplit sep rest with
      | [] => [[c]]
      | f :: fs => (c :: f) :: fs

/-- Does `needle` occur at the front of `hay`? -/
def matchesFront : Str → Str → Bool
  | [], _ => true
  | _ :: _, [] => false
  | a :: as, b :: bs => a == b && matchesFront as bs

/-- JS `String.prototype.includes`: substring containment. -/
def jsIncludes (hay needle : Str) : Bool :=
  match hay with
  | [] => needle.isEmpty
  | _ :: rest => matchesFront needle hay || jsIncludes rest needle

/-- JS object property assignment `row[k] = v`: update in place if the
key exists (keeping its position), otherwise append. -/
def objSet (row : TableRow) (k v : Str) : TableRow :=
  if row.any (fun p => decide (p.1 = k)) then
    row.map (fun p => if p.1 = k then (k, v) else p)
  else row ++ [(k, v)]

/-- JS object property read `row[k]`: `some` value if present. -/
def objGet (row : TableRow) (k : Str) : Option Str :=
  (row.find? (fun p => decide (p.1 = k))).map (fun p => p.2)

/-- `parseCSVLine`'s character scan (source lines 42-59 of the debounced
variant): splits one line into fields honouring CSV quoting.  `cur` is
the accumulating field buffer, `inQ` the inside-quoted-field state. -/
def parseCSVLineAux : Str → Str → Bool → List Str
  | [], cur, _ => [jsTrim cur]
  | '"' :: '"' :: rest, cur, true => parseCSVLineAux rest (cur ++ ['"']) true
  | '"' :: rest, cur, inQ => parseCSVLineAux rest cur (!inQ)
  | ',' :: rest, cur, false => jsTrim cur :: parseCSVLineAux rest [] false
  | c :: rest, cur, inQ => parseCSVLineAux rest (cur ++ [c]) inQ

/-- `parseCSVLine(line)`: parse one CSV line into trimmed field values. -/
def parseCSVLine (line : Str) : List Str := parseCSVLineAux line [] false

/-- The row-building loop body of `parseCSV`:
`headers.forEach((header, index) => { row[header] = values[index] || ''; })`,
with `idx` the running index. -/
def buildRowAux (row : TableRow) (headers values : List Str) (idx : Nat) : TableRow :=
  match headers with
  | [] => row
  | h :: hs => buildRowAux (objSet row h (values.getD idx [])) hs values (idx + 1)

/-- Build a row object by zipping headers with values positionally;
a missing value (`values[index]` undefined, or empty) becomes `''`. -/
def buildRow (headers values : List Str) : TableRow := buildRowAux [] headers values 0

/-- `parseCSV(csvText)`: split on newlines, take line 0 (comma-split,
trimmed) as headers, then build one row per non-blank subsequent line. -/
def parseCSV (csvText : Str) : List TableRow :=
  match jsSplit '\n' csvText with
  | [] => []
  | l0 :: rest =>
    let headers := (jsSplit ',' l0).map jsTrim
    rest.filterMap (fun line =>
      let currentLine := jsTrim line
      if currentLine = [] then none
      else some (buildRow headers (parseCSVLine currentLine)))

/-- The header list the app derives from a parse result:
`Object.keys(parsedData[0])` when non-empty, else the initial `[]`. -/
def extractHeaders (rows : List TableRow) : List Str :=
  match rows with
  | [] => []
  | r :: _ => r.map (fun p => p.1)

/-- The per-row predicate of `applyFilters`: every `(column, filterValue)`
entry with non-empty trimmed value must match as a case-insensitive
substring of the row's cell (missing cell reads as `''`). -/
def rowMatches (filtersToApply : ColumnFilter) (row : TableRow) : Bool :=
  filtersToApply.all (fun p =>
    if (jsTrim p.2).isEmpty then true
    else
      jsIncludes (((objGet row p.1).map jsToLower).getD []) (jsTrim (jsToLower p.2)))

/-- `applyFilters(filtersToApply, dataToFilter)` (source lines 92-107 of
the debounced variant): fast path when every filter value trims empty,
otherwise keep the rows satisfying `rowMatches`. -/
def applyFilters (filtersToApply : ColumnFilter) (dataToFilter : List TableRow) : List TableRow :=
  if filtersToApply.all (fun p => (jsTrim p.2).isEmpty) then dataToFilter
  else dataToFilter.filter (rowMatches filtersToApply)

/-- `displayRowsCount` (source lines 220-225): clamp the requested row
count to the number of filtered rows. -/
def displayRowsCount (rowsToDisplay : Nat) (filteredLen : Nat) : Nat :=
  if rowsToDisplay ≥ filteredLen then filteredLen else rowsToDisplay

/-- `filteredData.slice(0, displayRowsCount)` (source line 231): the
rendered prefix of the filtered rows. -/
def limitRows (rows : List TableRow) (n : Nat) : List TableRow :=
  rows.take (displayRowsCount n rows.length)

/-- The row predicate as the specification states it: every
`(column, filterValue)` pair whose trimmed value is non-empty must have
the lower-cased cell value (empty if the column is missing) contain the
lower-cased trimmed filter value; an empty filter value always passes;
columns combine by logical AND. -/
def specRowMatches (filters : ColumnFilter) (row : TableRow) : Bool :=
  filters.all (fun p =>
    decide (jsTrim p.2 = []) ||
      jsIncludes (jsToLower ((objGet row p.1).getD [])) (jsToLower (jsTrim p.2)))

/-- The field-splitting scan exactly as the specification words it:
on a double-quote inside a quoted field followed by another double-quote,
append one literal double-quote and skip the next character; on any other
double-quote, toggle the inside-quoted-field state without emitting;
on a comma outside quotes, push the trimmed buffer and reset it; any
other character is appended verbatim; at the end the trimmed buffer is
pushed unconditionally. -/
def specFieldScan : Str → Str → Bool → List Str
  | [], buf, _ => [jsTrim buf]
  | '"' :: '"' :: rest, buf, true => specFieldScan rest (buf ++ ['"']) true
  | '"' :: rest, buf, inQ => specFieldScan rest buf (!inQ)
  | c :: rest, buf, inQ =>
    if c = ',' ∧ inQ = false then jsTrim buf :: specFieldScan rest [] inQ
    else specFieldScan rest (buf ++ [c]) inQ

/-- The specification's field-splitting routine on a whole line. -/
def specSplitLine (line : Str) : List Str := specFieldScan line [] false

/-- The specification's row shape: headers zipped positionally with the
field values, starting at position `idx`; a missing value reads as the
empty string, surplus values are never consulted. -/
def rowSpec (headers values : List Str) (idx : Nat) : TableRow :=
  match headers with
  | [] => []
  | h :: hs => (h, values.getD idx []) :: rowSpec hs values (idx + 1)

/-- The last position at or after `i` (with `i` naming the head of the
list) at which header text `h` occurs, if any. -/
def lastIdxFrom (h : Str) : List Str → Nat → Option Nat
  | [], _ => none
  | x :: xs, i =>
    match lastIdxFrom h xs (i + 1) with
    | some j => some j
    | none => if x = h then some i else none

/-- The last position in the header line bearing the header text `h`. -/
def lastHeaderIdx (h : Str) (headers : List Str) : Option Nat :=
  lastIdxFrom h headers 0

/-! The repository contains three variants of the application.  The
multi-column variant (`VariantB`) and the fifth-column variant
(`VariantC`) each carry their own copy of `parseCSVLine` / `parseCSV`;
they are transcribed separately here so that their extensional
equality with the debounced variant's copy above can be proved. -/

namespace VariantB

def parseCSVLineAux : Str → Str → Bool → List Str
  | [], cur, _ => [jsTrim cur]
  | '"' :: '"' :: rest, cur, true => parseCSVLineAux rest (cur ++ ['"']) true
  | '"' :: rest, cur, inQ => parseCSVLineAux rest cur (!inQ)
  | ',' :: rest, cur, false => jsTrim cur :: parseCSVLineAux rest [] false
  | c :: rest, cur, inQ => parseCSVLineAux rest (cur ++ [c]) inQ

def parseCSVLine (line : Str) : List Str := parseCSVLineAux line [] false

def buildRowAux (row : TableRow) (headers values : List Str) (idx : Nat) : TableRow :=
  match headers with
  | [] => row
  | h :: hs => buildRowAux (objSet row h (values.getD idx [])) hs values (idx + 1)

def buildRow (headers values : List Str) : TableRow := buildRowAux [] headers values 0

def parseCSV (csvText : Str) : List TableRow :=
  match jsSplit '\n' csvText with
  | [] => []
  | l0 :: rest =>
    let headers := (jsSplit ',' l0).map jsTrim
    rest.filterMap (fun line =>
      let currentLine := jsTrim line
      if currentLine = [] then none
      else some (buildRow headers (parseCSVLine currentLine)))

end VariantB

namespace VariantC

def parseCSVLineAux : Str → Str → Bool → List Str
  | [], cur, _ => [jsTrim cur]
  | '"' :: '"' :: rest, cur, true => parseCSVLineAux rest (cur ++ ['"']) true
  | '"' :: rest, cur, inQ => parseCSVLineAux rest cur (!inQ)
  | ',' :: rest, cur, false => jsTrim cur :: parseCSVLineAux rest [] false
  | c :: rest, cur, inQ => parseCSVLineAux rest (cur ++ [c]) inQ

def parseCSVLine (line : Str) : List Str := parseCSVLineAux line [] false

def buildRowAux (row : TableRow) (headers values : List Str) (idx : Nat) : TableRow :=
  match headers with
  | [] => row
  | h :: hs => buildRowAux (objSet row h (values.getD idx [])) hs values (idx + 1)

def buildRow (headers values : List Str) : TableRow := buildRowAux [] headers values 0

def parseCSV (csvText : Str) : List TableRow :=
  match jsSplit '\n' csvText with
  | [] => []
  | l0 :: rest =>
    let headers := (jsSplit ',' l0).map jsTrim
    rest.filterMap (fun line =>
      let currentLine := jsTrim line
      if currentLine = [] then none
      else some (buildRow headers (parseCSVLine currentLine)))

end VariantC

/-- `toLowerCase` maps whitespace to itself and non-whitespace to
non-whitespace, so it does not affect `isWhitespace`. -/
theorem isWhitespace_toLower (c : Char) :
    c.toLower.isWhitespace = c.isWhitespace := by
  by_cases h : 65 ≤ c.toNat ∧ c.toNat ≤ 90
  · obtain ⟨h1, h2⟩ := h
    obtain ⟨n, hn⟩ : ∃ n, c.toNat = n := ⟨_, rfl⟩
    have hc : c = Char.ofNat n := by rw [← hn, Char.ofNat_toNat]
    rw [hn] at h1 h2
    subst hc
    interval_cases n <;> decide
  · have : c.toLower = c := by
      unfold Char.toLower
      rw [if_neg]
      intro hh
      exact h ⟨hh.1, hh.2⟩
    rw [this]

/-- Lower-casing commutes with trimming. -/
theorem jsToLower_jsTrim (s : Str) :
    jsToLower (jsTrim s) = jsTrim (jsToLower s) := by
  have hf : Char.isWhitespace ∘ Char.toLower = Char.isWhitespace :=
    funext isWhitespace_toLower
  simp only [jsTrim, jsToLower]
  conv_rhs => rw [List.dropWhile_map, hf, ← List.map_reverse,
    List.dropWhile_map, hf, ← List.map_reverse]

theorem getD_map_jsToLower (o : Option Str) :
    (o.map jsToLower).getD [] = jsToLower (o.getD []) := by
  cases o <;> simp [jsToLower]

/-- The inline row predicate of `applyFilters` agrees with the
specification's phrasing of it. -/
theorem rowMatches_eq_spec (F : ColumnFilter) (row : TableRow) :
    rowMatches F row = specRowMatches F row := by
  unfold rowMatches specRowMatches
  have hfun : ∀ p : Str × Str,
      (if (jsTrim p.2).isEmpty then true
       else jsIncludes (((objGet row p.1).map jsToLower).getD [])
              (jsTrim (jsToLower p.2))) =
      (decide (jsTrim p.2 = []) ||
        jsIncludes (jsToLower ((objGet row p.1).getD []))
          (jsToLower (jsTrim p.2))) := by
    intro p
    by_cases h : jsTrim p.2 = []
    · simp [h]
    · simp [h, getD_map_jsToLower, jsToLower_jsTrim]
  simp only [hfun]

/-- The source scan and the specification's scan agree from any state. -/
theorem parseCSVLineAux_eq_spec (l cur : Str) (q : Bool) :
    parseCSVLineAux l cur q = specFieldScan l cur q := by
  induction l, cur, q using parseCSVLineAux.induct <;>
    simp_all [parseCSVLineAux, specFieldScan]
  rename_i hne himp ih
  rw [if_neg]
  rintro ⟨h1, h2⟩
  rw [h2] at himp
  exact Bool.false_ne_true (himp h1)

theorem variantB_parseCSVLineAux_eq (l cur : Str) (q : Bool) :
    VariantB.parseCSVLineAux l cur q = parseCSVLineAux l cur q := by
  induction l, cur, q using parseCSVLineAux.induct <;>
    simp_all [parseCSVLineAux, VariantB.parseCSVLineAux]

theorem variantC_parseCSVLineAux_eq (l cur : Str) (q : Bool) :
    VariantC.parseCSVLineAux l cur q = parseCSVLineAux l cur q := by
  induction l, cur, q using parseCSVLineAux.induct <;>
    simp_all [parseCSVLineAux, VariantC.parseCSVLineAux]

theorem variantB_buildRowAux_eq (headers : List Str) :
    ∀ row values idx,
      VariantB.buildRowAux row headers values idx = buildRowAux row headers values idx := by
  induction headers with
  | nil => intro row values idx; rfl
  | cons h hs ih =>
    intro row values idx
    simp [VariantB.buildRowAux, buildRowAux, ih]

theorem variantC_buildRowAux_eq (headers : List Str) :
    ∀ row values idx,
      VariantC.buildRowAux row headers values idx = buildRowAux row headers values idx := by
  induction headers with
  | nil => intro row values idx; rfl
  | cons h hs ih =>
    intro row values idx
    simp [VariantC.buildRowAux, buildRowAux, ih]

theorem variantB_parseCSV_eq (text : Str) :
    VariantB.parseCSV text = parseCSV text := by
  have h1 : VariantB.parseCSVLine = parseCSVLine := by
    funext line
    exact variantB_parseCSVLineAux_eq line [] false
  have h2 : VariantB.buildRow = buildRow := by
    funext headers values
    exact variantB_buildRowAux_eq headers [] values 0
  unfold VariantB.parseCSV parseCSV
  rw [h1, h2]

theorem variantC_parseCSV_eq (text : Str) :
    VariantC.parseCSV text = parseCSV text := by
  have h1 : VariantC.parseCSVLine = parseCSVLine := by
    funext line
    exact variantC_parseCSVLineAux_eq line [] false
  have h2 : VariantC.buildRow = buildRow := by
    funext headers values
    exact variantC_buildRowAux_eq headers [] values 0
  unfold VariantC.parseCSV parseCSV
  rw [h1, h2]

/-- C2: `applyFilters` returns exactly the ordered subsequence of rows
in which every `(column, filterValue)` pair with a non-empty trimmed
value matches case-insensitively as a substring of the row's cell
(missing cells read as empty), filters combining by AND and empty
filter values always passing; filter value "FO" matches cell value
"foobar". -/
theorem applyFilters_eq_spec_filter :
    (∀ (F : ColumnFilter) (R : List TableRow),
        applyFilters F R = R.filter (specRowMatches F)) ∧
      specRowMatches [("a".data, "FO".data)] [("a".data, "foobar".data)] = true := by
  constructor
  · intro F R
    unfold applyFilters
    split
    · rename_i h
      rw [List.all_eq_true] at h
      symm
      rw [List.filter_eq_self]
      intro row _
      unfold specRowMatches
      rw [List.all_eq_true]
      intro p hp
      have hp2 := h p hp
      rw [List.isEmpty_eq_true] at hp2
      simp [hp2]
    · congr 1
      funext row
      exact rowMatches_eq_spec F row
  · decide

/-- C3: parsing and filtering are total functions; `parse("")` yields
no rows and hence empty extracted headers, and filtering the empty row
sequence yields `[]` for every filter map. -/
theorem parse_and_filter_total :
    parseCSV ("".data) = [] ∧ extractHeaders (parseCSV ("".data)) = [] ∧
      ∀ F : ColumnFilter, applyFilters F [] = [] := by
  refine ⟨by decide, by decide, fun F => ?_⟩
  unfold applyFilters
  split <;> simp

/-- C6: when every filter value trims to the empty string,
`applyFilters` returns its input row sequence unchanged. -/
theorem applyFilters_all_empty_identity (F : ColumnFilter) (R : List TableRow)
    (h : ∀ p ∈ F, jsTrim p.2 = []) : applyFilters F R = R := by
  have hc : F.all (fun p => (jsTrim p.2).isEmpty) = true := by
    rw [List.all_eq_true]
    intro p hp
    simp [h p hp]
  simp [applyFilters, hc]

theorem applyFilters_all_empty_identity_witness :
    applyFilters [("a".data, " ".data)] [[("a".data, "x".data)]] =
      [[("a".data, "x".data)]] :=
  applyFilters_all_empty_identity _ _ (by decide)

/-- C7: filtering is idempotent: applying the same filter map twice
gives the same result as applying it once. -/
theorem applyFilters_idempotent (F : ColumnFilter) (R : List TableRow) :
    applyFilters F (applyFilters F R) = applyFilters F R := by
  by_cases h : F.all (fun p => (jsTrim p.2).isEmpty) = true
  · simp [applyFilters, h]
  · simp [applyFilters, h, List.filter_filter]

/-- C8: the row-limiting operation returns exactly the first
`min n (length rows)` rows, and limiting only takes a prefix of the
filtered sequence — it never changes which rows the filters matched. -/
theorem limitRows_spec :
    (∀ (rows : List TableRow) (n : Nat),
        limitRows rows n = rows.take (min n rows.length)) ∧
      ∀ (F : ColumnFilter) (data : List TableRow) (n : Nat),
        ∃ rest, applyFilters F data = limitRows (applyFilters F data) n ++ rest := by
  constructor
  · intro rows n
    unfold limitRows displayRowsCount
    congr 1
    split <;> omega
  · intro F data n
    exact ⟨(applyFilters F data).drop (displayRowsCount n (applyFilters F data).length),
      (List.take_append_drop _ _).symm⟩

/-- C10: the CSV parsing routines duplicated across the three variants
are extensionally equal. -/
theorem variants_extensionally_equal :
    (∀ line, VariantB.parseCSVLine line = parseCSVLine line) ∧
      (∀ line, VariantC.parseCSVLine line = parseCSVLine line) ∧
      (∀ text, VariantB.parseCSV text = parseCSV text) ∧
      (∀ text, VariantC.parseCSV text = parseCSV text) :=
  ⟨fun line => variantB_parseCSVLineAux_eq line [] false,
   fun line => variantC_parseCSVLineAux_eq line [] false,
   variantB_parseCSV_eq, variantC_parseCSV_eq⟩

/-- C1: `parseCSVLine` implements the specified quote-aware character
scan; in particular it keeps a quoted comma inside one field and turns
a doubled quote inside quotes into one literal quote. -/
theorem parseCSVLine_implements_scan :
    (∀ line, parseCSVLine line = specSplitLine line) ∧
      parseCSVLine ("\"x,y\",z".data) = ["x,y".data, "z".data] ∧
      parseCSVLine ("\"he said \"\"hi\"\"\"".data) = ["he said \"hi\"".data] :=
  ⟨fun line => parseCSVLineAux_eq_spec line [] false, by decide, by decide⟩

theorem filterMap_parse_lines (headers : List Str) (lines : List Str) :
    (lines.filterMap (fun line =>
      if jsTrim line = [] then none
      else some (buildRow headers (parseCSVLine (jsTrim line))))) =
      (lines.filter (fun line => !decide (jsTrim line = []))).map
        (fun line => buildRow headers (parseCSVLine (jsTrim line))) := by
  induction lines with
  | nil => rfl
  | cons l ls ih =>
    by_cases h : jsTrim l = [] <;>
      simp [List.filterMap_cons, List.filter_cons, h, ih]

/-- C5: each non-header line that trims to the empty string is skipped;
every remaining line yields one row, preserving file order; the example
with an interior blank line yields exactly two rows. -/
theorem parseCSV_skips_blank_lines :
    (∀ text, parseCSV text =
      (((jsSplit '\n' text).drop 1).filter
          (fun line => !decide (jsTrim line = []))).map
        (fun line =>
          buildRow ((jsSplit ',' ((jsSplit '\n' text).headD [])).map jsTrim)
            (parseCSVLine (jsTrim line)))) ∧
      (parseCSV ("a,b\n1,2\n\n3,4".data)).length = 2 := by
  constructor
  · intro text
    rcases h : jsSplit '\n' text with _ | ⟨l0, rest⟩ <;>
      simp [parseCSV, h, filterMap_parse_lines]
  · decide

theorem objSet_fresh (row : TableRow) (k v : Str)
    (h : row.any (fun p => decide (p.1 = k)) = false) :
    objSet row k v = row ++ [(k, v)] := by
  simp [objSet, h]

theorem buildRowAux_fresh (headers : List Str) :
    ∀ (row : TableRow) (values : List Str) (idx : Nat),
      headers.Nodup →
      (∀ x ∈ headers, row.any (fun p => decide (p.1 = x)) = false) →
      buildRowAux row headers values idx = row ++ rowSpec headers values idx := by
  induction headers with
  | nil =>
    intro row values idx _ _
    simp [buildRowAux, rowSpec]
  | cons h hs ih =>
    intro row values idx hnd hfresh
    rw [List.nodup_cons] at hnd
    have hrow := objSet_fresh row h (values.getD idx []) (hfresh h (by simp))
    have hfresh2 : ∀ x ∈ hs,
        (row ++ [(h, values.getD idx [])]).any (fun p => decide (p.1 = x)) = false := by
      intro x hx
      rw [List.any_append]
      have h1 := hfresh x (by simp [hx])
      have h2 : ¬ h = x := fun he => hnd.1 (he ▸ hx)
      simp [h1, h2]
    calc buildRowAux row (h :: hs) values idx
        = buildRowAux (objSet row h (values.getD idx [])) hs values (idx + 1) := by
          simp only [buildRowAux]
      _ = (row ++ [(h, values.getD idx [])]) ++ rowSpec hs values (idx + 1) := by
          rw [hrow]
          exact ih _ values (idx + 1) hnd.2 hfresh2
      _ = row ++ rowSpec (h :: hs) values idx := by
          rw [List.append_assoc]
          rfl

theorem keys_objSet (row : TableRow) (k v h : Str) :
    (h ∈ (objSet row k v).map (fun p => p.1)) ↔
      h ∈ row.map (fun p => p.1) ∨ h = k := by
  unfold objSet
  split
  · rename_i hany
    rw [List.any_eq_true] at hany
    obtain ⟨p, hp, hpk⟩ := hany
    rw [decide_eq_true_iff] at hpk
    have hkeys : (row.map (fun q => if q.1 = k then (k, v) else q)).map (fun p => p.1) =
        row.map (fun p => p.1) := by
      rw [List.map_map]
      apply List.map_congr_left
      intro q _
      by_cases hq : q.1 = k <;> simp [hq]
    rw [hkeys]
    constructor
    · exact Or.inl
    · rintro (hm | rfl)
      · exact hm
      · exact hpk ▸ List.mem_map_of_mem _ hp
  · simp

theorem keys_buildRowAux (headers : List Str) :
    ∀ (row : TableRow) (values : List Str) (idx : Nat) (h : Str),
      (h ∈ (buildRowAux row headers values idx).map (fun p => p.1)) ↔
        h ∈ row.map (fun p => p.1) ∨ h ∈ headers := by
  induction headers with
  | nil => simp [buildRowAux]
  | cons hh hs ih =>
    intro row values idx h
    simp only [buildRowAux]
    rw [ih, keys_objSet]
    simp only [List.mem_cons]
    tauto

theorem rowSpec_keys (headers : List Str) :
    ∀ (values : List Str) (idx : Nat),
      (rowSpec headers values idx).map (fun p => p.1) = headers := by
  induction headers with
  | nil => intro values idx; rfl
  | cons h hs ih => intro values idx; simp [rowSpec, ih]

/-- C4: with duplicate-free headers a parsed row is exactly the headers
zipped positionally with the values — so its keys are exactly the header
names, missing trailing fields read as the empty string and surplus
values are dropped; `parse("a,b,c\n1,2")` yields one row
`a="1", b="2", c=""`. -/
theorem parse_rows_padded_and_truncated :
    (∀ headers values h,
        (h ∈ (buildRow headers values).map (fun p => p.1)) ↔ h ∈ headers) ∧
      (∀ headers values, headers.Nodup →
        buildRow headers values = rowSpec headers values 0) ∧
      (∀ headers values idx,
        (rowSpec headers values idx).map (fun p => p.1) = headers) ∧
      parseCSV ("a,b,c\n1,2".data) =
        [[("a".data, "1".data), ("b".data, "2".data), ("c".data, [])]] := by
  refine ⟨fun headers values h => ?_, fun headers values hnd => ?_, rowSpec_keys, by decide⟩
  · rw [buildRow, keys_buildRowAux]
    simp
  · have h := buildRowAux_fresh headers [] values 0 hnd (fun x _ => rfl)
    simpa [buildRow] using h

theorem parse_rows_padded_witness :
    buildRow ["a".data, "b".data] ["1".data] =
      rowSpec ["a".data, "b".data] ["1".data] 0 :=
  parse_rows_padded_and_truncated.2.1 _ _ (by decide)

theorem find?_map_update (row : TableRow) (k v : Str)
    (h : row.any (fun p => decide (p.1 = k)) = true) :
    (row.map (fun p => if p.1 = k then (k, v) else p)).find?
      (fun p => decide (p.1 = k)) = some (k, v) := by
  induction row with
  | nil => simp at h
  | cons q qs ih =>
    by_cases hq : q.1 = k
    · simp [hq]
    · have h' : qs.any (fun p => decide (p.1 = k)) = true := by
        simpa [List.any_cons, hq] using h
      simp [hq, ih h']

theorem find?_map_update_ne (row : TableRow) (k v h' : Str) (hne : ¬ k = h') :
    (row.map (fun p => if p.1 = k then (k, v) else p)).find?
        (fun p => decide (p.1 = h')) =
      row.find? (fun p => decide (p.1 = h')) := by
  have hne2 : ¬ h' = k := fun he => hne he.symm
  induction row with
  | nil => rfl
  | cons q qs ih =>
    by_cases hq : q.1 = k
    · have hqh : ¬ q.1 = h' := by rw [hq]; exact hne
      simp [hq, hqh, hne, hne2, ih]
    · by_cases hqh : q.1 = h' <;> simp [hq, hqh, hne, hne2, ih]

theorem objGet_objSet_self (row : TableRow) (k v : Str) :
    objGet (objSet row k v) k = some v := by
  unfold objGet objSet
  split
  · rename_i h
    rw [find?_map_update row k v h]
    rfl
  · rename_i h
    rw [Bool.not_eq_true] at h
    rw [List.any_eq_false] at h
    have hnone : row.find? (fun p => decide (p.1 = k)) = none := by
      rw [List.find?_eq_none]
      exact h
    simp [List.find?_append, hnone]

theorem objGet_objSet_ne (row : TableRow) (k v h' : Str) (hne : ¬ k = h') :
    objGet (objSet row k v) h' = objGet row h' := by
  unfold objGet objSet
  split
  · rw [find?_map_update_ne row k v h' hne]
  · simp [List.find?_append, hne]

theorem buildRowAux_no_key (headers : List Str) :
    ∀ (row : TableRow) (values : List Str) (idx : Nat) (h' : Str),
      (∀ x ∈ headers, ¬ x = h') →
      objGet (buildRowAux row headers values idx) h' = objGet row h' := by
  induction headers with
  | nil => intro row values idx h' _; rfl
  | cons hh hs ih =>
    intro row values idx h' hne
    simp only [buildRowAux]
    rw [ih _ values (idx + 1) h' (fun x hx => hne x (by simp [hx]))]
    exact objGet_objSet_ne row hh _ h' (hne hh (by simp))

theorem lastIdxFrom_none (h' : Str) (l : List Str) :
    ∀ i, lastIdxFrom h' l i = none → ∀ x ∈ l, ¬ x = h' := by
  induction l with
  | nil => intro i _ x hx; cases hx
  | cons a as ih =>
    intro i hn x hx
    simp only [lastIdxFrom] at hn
    cases hlast : lastIdxFrom h' as (i + 1) with
    | some j => rw [hlast] at hn; cases hn
    | none =>
      rw [hlast] at hn
      by_cases ha : a = h'
      · rw [if_pos ha] at hn
        cases hn
      · rcases List.mem_cons.mp hx with rfl | hx2
        · exact ha
        · exact ih (i + 1) hlast x hx2

theorem buildRowAux_last_write (headers : List Str) :
    ∀ (row : TableRow) (values : List Str) (idx : Nat) (h' : Str) (j : Nat),
      lastIdxFrom h' headers idx = some j →
      objGet (buildRowAux row headers values idx) h' = some (values.getD j []) := by
  induction headers with
  | nil => intro row values idx h' j hj; cases hj
  | cons hh hs ih =>
    intro row values idx h' j hj
    simp only [buildRowAux]
    simp only [lastIdxFrom] at hj
    cases hlast : lastIdxFrom h' hs (idx + 1) with
    | some j' =>
      rw [hlast] at hj
      injection hj with hj2
      subst hj2
      exact ih _ values (idx + 1) h' _ hlast
    | none =>
      rw [hlast] at hj
      by_cases heq : hh = h'
      · rw [if_pos heq] at hj
        injection hj with hj2
        subst hj2
        rw [buildRowAux_no_key hs _ values (idx + 1) h' (lastIdxFrom_none h' hs _ hlast)]
        rw [heq]
        exact objGet_objSet_self row h' (values.getD idx [])
      · rw [if_neg heq] at hj
        cases hj

/-- C9: duplicate headers collapse last-write-wins: every built row maps
a header name to the field value at the last header position bearing
that name. -/
theorem buildRow_last_write_wins (headers values : List Str) (h : Str) (j : Nat)
    (hj : lastHeaderIdx h headers = some j) :
    objGet (buildRow headers values) h = some (values.getD j []) :=
  buildRowAux_last_write headers [] values 0 h j hj

theorem buildRow_last_write_wins_witness :
    lastHeaderIdx ("a".data) ["a".data, "b".data, "a".data] = some 2 ∧
      objGet (buildRow ["a".data, "b".data, "a".data]
        ["1".data, "2".data, "3".data]) ("a".data) = some ("3".data) := by
  refine ⟨by decide, ?_⟩
  exact buildRow_last_write_wins ["a".data, "b".data, "a".data]
    ["1".data, "2".data, "3".data] ("a".data) 2 (by decide)

